import Mathlib

/-!
# MEA analyzer: data-organization and statistical-normalization pipeline

A shallow embedding, in Lean 4, of the core of the `mea-analyzer` repository:

* `src/data_organizer.py` — experiment-config processing (`DataOrganizer.__init__`,
  `_create_well_mapping`), metric-type missing-value rules
  (`apply_metric_missing_value_rules`) and the master-table builder
  (`create_master_dataframe`);
* `src/config_handler.py` — metric classification (`ConfigHandler.get_metric_type`);
* `src/analysis/normalization.py` — `baseline_normalize`;
* `src/qc/outliers.py` — `flag_outliers`, `apply_outlier_filter`;
* `src/mea_statistics/timepoint_tests.py` — `p_adjust`,
  `compare_conditions_at_timepoint` (omnibus-test selection).

Modelling conventions:

* A pandas DataFrame is modelled as a `List` of records (one structure per
  table schema).  A cell that pandas stores as `NaN` ("absent") is an
  `Option` field holding `none`; numeric cells are exact rationals `ℚ`
  rather than IEEE floats, which is the intended reading of the spec's
  "exactly"/"within floating-point tolerance" statements.
* `pd.to_numeric(..., errors="coerce")` is the identity on these records,
  since values are already numeric-or-absent.
* Dividing by a zero baseline produces a non-finite float in pandas
  (`NaN` for `0/0`, `±inf` otherwise); both are modelled as an absent
  (`none`) result.  No claim distinguishes `inf` from `NaN`.
* Python `str.strip().upper()` is modelled at the ASCII level
  (well identifiers such as `"A1"` are ASCII).
* File and YAML I/O is out of scope: functions receive already-parsed
  configuration values and already-loaded per-file tables, exactly as the
  Python code sees them after `yaml.safe_load` / the data-loader callback.
-/

/-! ## String canonicalization (`str(w).strip().upper()`) -/

/-- ASCII whitespace recognizer used by `strip()` on well identifiers. -/
def isWsChar (c : Char) : Bool := c = ' ' || c = '\t' || c = '\n' || c = '\r'

/-- `str.strip()` on the character list: drop leading and trailing whitespace. -/
def trimChars (l : List Char) : List Char :=
  ((l.dropWhile isWsChar).reverse.dropWhile isWsChar).reverse

/-- ASCII `str.upper()` on a single character. -/
def upperChar (c : Char) : Char :=
  if 'a' ≤ c ∧ c ≤ 'z' then Char.ofNat (c.toNat - 32) else c

/-- `str(w).strip().upper()` — canonical form of a well identifier. -/
def canonWell (s : String) : String := ⟨(trimChars s.data).map upperChar⟩

/-! ## Metric classification (`ConfigHandler.get_metric_type`)

`ConfigHandler` lazily loads `metrics_config.yaml`; the loaded document is
four lists of metric names.  We model the handler as that parsed document
(the lazy file read is I/O, out of scope). -/

structure ConfigHandler where
  count_metrics : List String
  rate_metrics : List String
  interval_duration_metrics : List String
  derived_metrics : List String
deriving DecidableEq, Repr, Inhabited

/-- `ConfigHandler.get_metric_type`: membership-test cascade over the four
configured lists; anything unlisted is `"unknown"`. -/
def ConfigHandler.get_metric_type (h : ConfigHandler) (metric_name : String) : String :=
  if metric_name ∈ h.count_metrics then "count"
  else if metric_name ∈ h.rate_metrics then "rate"
  else if metric_name ∈ h.interval_duration_metrics then "interval_duration"
  else if metric_name ∈ h.derived_metrics then "derived"
  else "unknown"

/-! ## Master-table records and the missing-value fill step -/

/-- One row of the master long-format DataFrame
(`plate_id, time_point, well, condition, condition_color, metric, value, metric_type`).
`condition`, `condition_color` and `value` are nullable columns. -/
structure MRow where
  plate_id : String
  time_point : ℤ
  well : String
  condition : Option String
  condition_color : Option String
  metric : String
  value : Option ℚ
  metric_type : String
deriving DecidableEq, Repr, Inhabited

/-- `DataOrganizer.apply_metric_missing_value_rules`.

If no `config_handler` is set the input is returned unchanged (first early
return in the Python).  Otherwise `pd.to_numeric` re-coercion is the
identity here, the `metric_type` column is already present on master rows
(the Python recomputes it only when the column is missing), and the masked
assignment fills value `0` exactly on rows whose value is absent and whose
`metric_type` is `"count"` or `"rate"`. -/
def apply_metric_missing_value_rules (handler : Option ConfigHandler) (df : List MRow) :
    List MRow :=
  match handler with
  | none => df
  | some _ =>
      df.map fun r =>
        if r.value = none ∧ (r.metric_type = "count" ∨ r.metric_type = "rate") then
          { r with value := some 0 }
        else r

/-! ## Experiment configuration and `DataOrganizer` construction -/

/-- One entry of the `conditions:` mapping in the experiment YAML. -/
structure ConditionInfo where
  wells : List String
  color : Option String
deriving DecidableEq, Repr, Inhabited

/-- The parsed experiment YAML, as `DataOrganizer.__init__` reads it
(`plate_id`; `conditions` in document order; optional `ignore_wells`).
`data_dir` resolution and existence checks are file-system I/O, out of
scope. -/
structure ExperimentConfig where
  plate_id : String
  conditions : List (String × ConditionInfo)
  ignore_wells : List String
deriving DecidableEq, Repr, Inhabited

/-- Inner loop of `DataOrganizer._create_well_mapping`: insert the wells of
one condition into the accumulated `{well_id: condition_name}` mapping,
failing on a well that is already mapped. -/
def addConditionWells (condition_name : String) (wells : List String)
    (acc : List (String × String)) : Except String (List (String × String)) :=
  match wells with
  | [] => .ok acc
  | w :: rest =>
      let well_id := canonWell w
      if (acc.lookup well_id).isSome then
        .error ("Well " ++ well_id ++ " assigned to multiple conditions!")
      else
        addConditionWells condition_name rest (acc ++ [(well_id, condition_name)])

/-- `DataOrganizer._create_well_mapping`: fold all conditions, in document
order, into the well → condition association; duplicate assignment is a
`ValueError`. -/
def create_well_mapping (conds : List (String × ConditionInfo))
    (acc : List (String × String)) : Except String (List (String × String)) :=
  match conds with
  | [] => .ok acc
  | (name, info) :: rest => do
      let acc' ← addConditionWells name info.wells acc
      create_well_mapping rest acc'

/-- `DataOrganizer._create_condition_color_mapping`. -/
def create_condition_color_mapping (conds : List (String × ConditionInfo)) :
    List (String × Option String) :=
  conds.map fun (name, info) => (name, info.color)

/-- The state `DataOrganizer.__init__` builds (file-system checks aside). -/
structure DataOrganizer where
  plate_id : String
  ignore_wells : List String
  well_to_condition : List (String × String)
  condition_to_color : List (String × Option String)
  drop_ignored_wells : Bool
deriving DecidableEq, Repr, Inhabited

/-- `DataOrganizer.__init__` on an already-parsed config: normalize
`ignore_wells`, build the well mapping (the only validation that can fail
here) and the color mapping. -/
def DataOrganizer.build (cfg : ExperimentConfig) (drop_ignored_wells : Bool := true) :
    Except String DataOrganizer := do
  let ignore := cfg.ignore_wells.map canonWell
  let mapping ← create_well_mapping cfg.conditions []
  .ok { plate_id := cfg.plate_id
        ignore_wells := ignore
        well_to_condition := mapping
        condition_to_color := create_condition_color_mapping cfg.conditions
        drop_ignored_wells := drop_ignored_wells }

/-- All condition-assigned wells of a config, canonicalized, in document
order (the order `_create_well_mapping` visits them). -/
def assignedCanonWells (cfg : ExperimentConfig) : List String :=
  (cfg.conditions.map fun p => p.2.wells.map canonWell).flatten

/-! ## Master-table builder (`DataOrganizer.create_master_dataframe`)

CSV discovery and the per-file loader callback are I/O; the builder is
modelled from the point where each discovered file has produced its
long-format `(Metric, Well, Value)` table.  Files arrive as
`(time_point, rows)` pairs in discovery order; per-file load failures
(skipped files) are the loader's concern and out of scope. -/

/-- One row of a loaded per-file long table, after the
`{"Metric": "metric", "Well": "well", "Value": "value"}` rename. -/
structure LoadedRow where
  metric : String
  well : String
  value : Option ℚ
deriving DecidableEq, Repr, Inhabited

/-- The per-file body of the `create_master_dataframe` loop: clean well ids,
attach `plate_id` and `time_point`, map condition (missing stays absent,
never a sentinel), drop ignored wells when requested, map condition color,
classify the metric (or `"unknown"` without a handler). -/
def processFile (org : DataOrganizer) (handler : Option ConfigHandler)
    (time_point : ℤ) (rows : List LoadedRow) : List MRow :=
  let cleaned := rows.map fun r =>
    let w := canonWell r.well
    let cond := (org.well_to_condition.lookup w)
    ({ plate_id := org.plate_id
       time_point := time_point
       well := w
       condition := cond
       condition_color := (cond.bind fun c => (org.condition_to_color.lookup c).join)
       metric := r.metric
       value := r.value
       metric_type := match handler with
         | some h => h.get_metric_type r.metric
         | none => "unknown" } : MRow)
  -- the Python guard `if self.drop_ignored_wells and self.ignore_wells:`
  if org.drop_ignored_wells ∧ org.ignore_wells ≠ [] then
    cleaned.filter fun r => decide (r.well ∉ org.ignore_wells)
  else cleaned

/-- `DataOrganizer.create_master_dataframe`: concatenate the per-file
tables, then apply the missing-value rules once, centrally.  (The final
column re-ordering is a schema projection, identity on these records.)
Raises when nothing loaded; modelled by the caller checking emptiness. -/
def create_master_dataframe (org : DataOrganizer) (handler : Option ConfigHandler)
    (files : List (ℤ × List LoadedRow)) : List MRow :=
  let master := (files.map fun (tp, rows) => processFile org handler tp rows).flatten
  apply_metric_missing_value_rules handler master

/-! ## Baseline normalization (`analysis/normalization.py::baseline_normalize`) -/

/-- The closed method enumeration `{"ratio", "percent", "delta"}` (an
unknown string raises at the boundary; modelled as a closed type). -/
inductive NormMethod
  | ratio
  | percent
  | delta
deriving DecidableEq, Repr

/-- Input row for `baseline_normalize`: the required columns
`time_point, well, metric` and the value column.  The `plate_id` column is
carried on every row; whether the *table* has that column is the separate
`hasPlate` switch below (other payload columns pass through untouched and
are omitted). -/
structure NRow where
  plate_id : String
  time_point : ℤ
  well : String
  metric : String
  value : Option ℚ
deriving DecidableEq, Repr, Inhabited

/-- Output row: the input columns, plus the `_baseline_exclusion_reason`
column and the normalized-value column, both of which remain in the
returned frame (`_baseline_value` is the column the code drops). -/
structure BNRow where
  plate_id : String
  time_point : ℤ
  well : String
  metric : String
  value : Option ℚ
  baseline_exclusion_reason : Option String
  value_norm : Option ℚ
deriving DecidableEq, Repr, Inhabited

/-- The type-standardization step: `well.strip().upper()`
(`time_point`/value coercions are the identity on these records). -/
def canonNRow (r : NRow) : NRow := { r with well := canonWell r.well }

/-- Grouping key: `["well", "metric"]`, prefixed by `plate_id` when the
input table has that column (`hasPlate`).  A table without the column is
modelled by a `none` first component for every row, so the key ignores it. -/
def nKey (hasPlate : Bool) (r : NRow) : Option String × String × String :=
  (if hasPlate then some r.plate_id else none, r.well, r.metric)

/-- Per-group baseline: rows at the baseline time point, grouped by key,
aggregated by `mean` (pandas skips absent values; a group whose baseline
values are all absent, or that has no baseline row, merges to an absent
baseline). -/
def baselineOf (hasPlate : Bool) (d : List NRow) (baseline_time_point : ℤ)
    (k : Option String × String × String) : Option ℚ :=
  let vs := ((d.filter fun r =>
      decide (r.time_point = baseline_time_point ∧ nKey hasPlate r = k)).filterMap
      fun r => r.value)
  if vs.isEmpty then none else some (vs.sum / vs.length)

/-- Exclusion reason of one merged row: `"baseline_missing"` when the
merged baseline is absent; else, for ratio/percent with zero-exclusion
enabled, `"baseline_zero"` when the baseline is exactly 0. -/
def exclusionReason (method : NormMethod) (exclude_zero_baseline : Bool)
    (b : Option ℚ) : Option String :=
  if b = none then some "baseline_missing"
  else if (method = .ratio ∨ method = .percent) ∧ exclude_zero_baseline ∧ b = some 0 then
    some "baseline_zero"
  else none

/-- The normalized value of a non-excluded row.  An absent value propagates
(`NaN` arithmetic); a zero baseline under ratio/percent gives a non-finite
float (`0/0 → NaN`, else `±inf`), modelled as absent. -/
def normValue (method : NormMethod) (v b : Option ℚ) : Option ℚ :=
  match v, b with
  | some v, some b =>
      match method with
      | .ratio => if b = 0 then none else some (v / b)
      | .percent => if b = 0 then none else some (100 * v / b)
      | .delta => some (v - b)
  | _, _ => none

/-- One output row: merge the group baseline onto the row, attach the
exclusion reason, compute the normalized value only when not excluded. -/
def annotateNRow (hasPlate : Bool) (d : List NRow) (baseline_time_point : ℤ)
    (method : NormMethod) (exclude_zero_baseline : Bool) (r : NRow) : BNRow :=
  let b := baselineOf hasPlate d baseline_time_point (nKey hasPlate r)
  let reason := exclusionReason method exclude_zero_baseline b
  { plate_id := r.plate_id
    time_point := r.time_point
    well := r.well
    metric := r.metric
    value := r.value
    baseline_exclusion_reason := reason
    value_norm := if reason = none then normValue method r.value b else none }

/-- `baseline_normalize`: standardize types, compute per-key baselines from
the baseline time point, left-join them back, derive exclusion reasons and
normalized values, then keep or drop the excluded rows.  The
`_baseline_value` join column is dropped; `_baseline_exclusion_reason`
and the normalized column are what the output record carries beyond the
input columns. -/
def baseline_normalize (hasPlate : Bool) (df : List NRow) (baseline_time_point : ℤ)
    (method : NormMethod) (exclude_zero_baseline : Bool) (keep_excluded_rows : Bool) :
    List BNRow :=
  let d := df.map canonNRow
  let annotated := d.map (annotateNRow hasPlate d baseline_time_point method exclude_zero_baseline)
  if keep_excluded_rows then annotated
  else annotated.filter fun r => decide (r.baseline_exclusion_reason = none)

/-! ### Column-level view of `baseline_normalize`

The claims about helper columns are about column *names* of the returned
frame, so alongside the record-level model we track the column list the
code produces: the left-merge appends `_baseline_value` (the only non-key
column of `base`), the two assignments add `_baseline_exclusion_reason`
and the normalized column when new, and the final `drop` removes
`_baseline_value`. -/

/-- Column assignment `out[c] = ...`: appends the column if new. -/
def appendIfNew (cols : List String) (c : String) : List String :=
  if c ∈ cols then cols else cols ++ [c]

/-- The columns of the frame `baseline_normalize` returns, as a function of
the input frame's columns and the `normalized_col` parameter
(default `"value_norm"`). -/
def baseline_normalize_columns (input_cols : List String) (normalized_col : String) :
    List String :=
  let merged := appendIfNew input_cols "_baseline_value"
  let withReason := appendIfNew merged "_baseline_exclusion_reason"
  let withNorm := appendIfNew withReason normalized_col
  withNorm.filter fun c => decide (c ≠ "_baseline_value")

/-! ## Outlier flagging and filtering (`qc/outliers.py`) -/

/-- The closed `OutlierSpec.method` enumeration
(`"zscore"` / `"robust_zscore"`; an unknown string raises inside the
group processor). -/
inductive OutlierMethod
  | zscore
  | robust_zscore
deriving DecidableEq, Repr, Inhabited

/-- `OutlierSpec` with its defaults.  `group_cols` is fixed to the default
`("plate_id", "metric", "condition", "time_point")` and `value_col` to
`"value"`, the configuration every claim is about. -/
structure OutlierSpec where
  method : OutlierMethod := .zscore
  threshold : ℚ := 3
  min_group_n : ℕ := 3
deriving DecidableEq, Repr

/-- Input row for `flag_outliers`: the default group columns plus `well`
and the value column (`condition` is the nullable group column). -/
structure QRow where
  plate_id : String
  time_point : ℤ
  well : String
  condition : Option String
  metric : String
  value : Option ℚ
deriving DecidableEq, Repr, Inhabited

/-- Output row of `flag_outliers`: the input columns plus the five attached
annotation columns. -/
structure FlagRow where
  plate_id : String
  time_point : ℤ
  well : String
  condition : Option String
  metric : String
  value : Option ℚ
  outlier_method : OutlierMethod
  outlier_threshold : ℚ
  outlier_score : Option ℚ
  is_outlier : Bool
  outlier_group_n : ℕ
deriving DecidableEq, Repr, Inhabited

/-- The default grouping key `(plate_id, metric, condition, time_point)`. -/
def outlierGroupKey (r : QRow) : String × String × Option String × ℤ :=
  (r.plate_id, r.metric, r.condition, r.time_point)

/-- pandas `Series.median()` on the valid values: midpoint of the sorted
list (mean of the two middle elements for even length). -/
def medianQ (l : List ℚ) : ℚ :=
  let s := l.insertionSort (· ≤ ·)
  let n := s.length
  if n % 2 = 1 then s.getD (n / 2) 0
  else (s.getD (n / 2 - 1) 0 + s.getD (n / 2) 0) / 2

/-- Exact square root on `ℚ` when it exists.  The float `std = sqrt(var)`
is not a rational in general; the `outlier_score` column is modelled as
the exact z-score when the standard deviation is rational and as absent
otherwise, while the `is_outlier` flag below uses the exactly equivalent
squared comparison and so never depends on this representation gap. -/
def ratSqrtOpt (q : ℚ) : Option ℚ :=
  if q < 0 then none
  else
    let sn := Nat.sqrt q.num.natAbs
    let sd := Nat.sqrt q.den
    if sn * sn = q.num.natAbs ∧ sd * sd = q.den then some ((sn : ℚ) / (sd : ℚ)) else none

/-- The `_process_group` body of `flag_outliers`, for one row `r` of a
group `g` (the rows sharing `r`'s group key): count valid values, set
`outlier_group_n`, and — when the group is large enough and has nonzero
spread — attach the score and the threshold flag.

For `zscore`: mean and sample standard deviation (`ddof=1`); the code
skips the group when `std` is 0 or undefined (`n ≤ 1`).  `|z| ≥ t` is
decided as `t ≤ 0 ∨ (x − mean)² ≥ t²·var`, which is equivalent.
For `robust_zscore`: modified z-score `0.6745·(x − median)/MAD`, skipped
when `MAD` is 0 or undefined (`n = 0`); the float literal `0.6745` is
modelled as the exact decimal.  A row whose own value is absent gets an
absent score and is never flagged (`NaN` comparisons are false). -/
def processGroupRow (spec : OutlierSpec) (g : List QRow) (r : QRow) : FlagRow :=
  let valid := g.filterMap fun x => x.value
  let n := valid.length
  let base : FlagRow :=
    { plate_id := r.plate_id, time_point := r.time_point, well := r.well
      condition := r.condition, metric := r.metric, value := r.value
      outlier_method := spec.method, outlier_threshold := spec.threshold
      outlier_score := none, is_outlier := false, outlier_group_n := n }
  if n < spec.min_group_n then base
  else
    match spec.method with
    | .zscore =>
        let mean := valid.sum / n
        let svar := (valid.map fun x => (x - mean) ^ 2).sum / (n - 1 : ℚ)
        if n ≤ 1 ∨ svar = 0 then base
        else
          match r.value with
          | none => base
          | some x =>
              { base with
                outlier_score := (ratSqrtOpt svar).map fun s => (x - mean) / s
                is_outlier :=
                  decide (spec.threshold ≤ 0 ∨
                    spec.threshold ^ 2 * svar ≤ (x - mean) ^ 2) }
    | .robust_zscore =>
        let med := medianQ valid
        let mad := medianQ (valid.map fun x => |x - med|)
        if n = 0 ∨ mad = 0 then base
        else
          match r.value with
          | none => base
          | some x =>
              let z := (6745 / 10000 : ℚ) * (x - med) / mad
              { base with
                outlier_score := some z
                is_outlier := decide (spec.threshold ≤ |z|) }

/-- `flag_outliers`: annotate every row with group-wise outlier scores and
flags.  `out.groupby(group_cols).apply(...)` silently *drops* the rows
whose group key contains an absent value (`groupby`'s `dropna` default);
`condition` is the nullable key column, so rows with no condition vanish
from the returned frame.  Surviving rows keep their original order and all
their original column values. -/
def flag_outliers (df : List QRow) (spec : OutlierSpec) : List FlagRow :=
  let kept := df.filter fun r => decide (r.condition ≠ none)
  kept.map fun r =>
    processGroupRow spec (kept.filter fun g => decide (outlierGroupKey g = outlierGroupKey r)) r

/-- The closed `apply_outlier_filter` mode enumeration. -/
inductive FilterMode
  | point_to_nan
  | drop_rows
  | drop_well_metric
deriving DecidableEq, Repr

/-- The `(plate_id, well, metric)` series key of the `drop_well_metric`
policy. -/
def wmKey (r : FlagRow) : String × String × String := (r.plate_id, r.well, r.metric)

/-- `apply_outlier_filter`.  For `drop_well_metric`: collect the distinct
`(plate_id, well, metric)` keys of flagged rows (the key columns are
non-null strings here, so the `dropna(subset=...)` step keeps every flagged
row), then left-merge a `_drop` indicator onto the frame and keep the rows
whose indicator is not `True`. -/
def apply_outlier_filter (df : List FlagRow) (mode : FilterMode) : List FlagRow :=
  match mode with
  | .point_to_nan => df.map fun r => if r.is_outlier then { r with value := none } else r
  | .drop_rows => df.filter fun r => !r.is_outlier
  | .drop_well_metric =>
      let bad := ((df.filter fun r => r.is_outlier).map wmKey).dedup
      if bad.isEmpty then df
      else
        let merged := df.map fun r => (r, decide (wmKey r ∈ bad))
        (merged.filter fun p => !p.2).map Prod.fst

/-! ## P-value adjustment (`mea_statistics/timepoint_tests.py::p_adjust`) -/

/-- The closed correction-method enumeration. -/
inductive PAdjustMethod
  | bonferroni
  | holm
  | fdr_bh
deriving DecidableEq, Repr

/-- `np.argsort(pvals)`: the index permutation that sorts the p-values
ascending.  (NumPy's default sort is not stable on ties; the adjusted
values are tie-order independent, so a stable comparison sort is a
faithful model.) -/
def argsortQ (pvals : List ℚ) : List ℕ :=
  (List.range pvals.length).insertionSort fun i j => pvals.getD i 0 ≤ pvals.getD j 0

/-- `out[order] = adj`: scatter the rank-ordered adjusted values back to
the original positions (`order` is a permutation of `range m`, so
`order.indexOf j` is the rank of position `j`). -/
def scatterQ (order : List ℕ) (adj : List ℚ) : List ℚ :=
  (List.range adj.length).map fun j => adj.getD (order.indexOf j) 0

/-- The first Holm pass over the rank-sorted p-values:
`adj[i] = min((m - i) * p_i, 1.0)`. -/
def holmRaw (m : ℕ) (ranked : List ℚ) : List ℚ :=
  ranked.enum.map fun (i, p) => min (((m - i : ℕ) : ℚ) * p) 1

/-- Tail of the forward monotonicity pass `adj[i] = max(adj[i], adj[i-1])`. -/
def runningMaxAux (acc : ℚ) : List ℚ → List ℚ
  | [] => []
  | x :: xs => max acc x :: runningMaxAux (max acc x) xs

/-- The forward monotonicity pass of Holm (indices `1..m-1`). -/
def runningMax : List ℚ → List ℚ
  | [] => []
  | x :: xs => x :: runningMaxAux x xs

/-- The backward Benjamini–Hochberg pass over the enumerated rank-sorted
p-values: `adj[i] = min(p_i * m / (i+1), adj[i+1])`, computed from the
largest rank down (the cap at 1 is applied afterwards). -/
def bhPass (m : ℕ) : List (ℕ × ℚ) → List ℚ
  | [] => []
  | (i, p) :: rest =>
      let restAdj := bhPass m rest
      let v := p * m / ((i : ℚ) + 1)
      (match restAdj.head? with
       | none => v
       | some nxt => min v nxt) :: restAdj

/-- `p_adjust`: same-length sequence of adjusted p-values.  An empty input
returns the empty output in every method (the code's early return). -/
def p_adjust (pvals : List ℚ) (method : PAdjustMethod) : List ℚ :=
  let m := pvals.length
  match method with
  | .bonferroni => pvals.map fun p => min (p * m) 1
  | .holm =>
      let order := argsortQ pvals
      let ranked := order.map fun i => pvals.getD i 0
      scatterQ order (runningMax (holmRaw m ranked))
  | .fdr_bh =>
      let order := argsortQ pvals
      let ranked := order.map fun i => pvals.getD i 0
      scatterQ order ((bhPass m ranked.enum).map fun q => min q 1)

/-! ## Omnibus-test selection (`compare_conditions_at_timepoint`) -/

/-- The closed `test_family` enumeration of `TimepointStatsSpec`. -/
inductive TestFamily
  | parametric
  | nonparametric
deriving DecidableEq, Repr

/-- Input row for the timepoint comparator (minimum schema
`metric, time_point, condition, value`, plus the optional `plate_id`
column, always present on master-derived tables). -/
structure TRow where
  plate_id : String
  time_point : ℤ
  condition : Option String
  metric : String
  value : Option ℚ
deriving DecidableEq, Repr, Inhabited

/-- The omnibus-test fields the comparator reports: the `test` name string
written into the result row, the `alternative` argument passed to the
scipy call (only Mann–Whitney receives one), and `k_groups`. -/
structure OmnibusChoice where
  test : String
  alternative : Option String
  k_groups : ℕ
deriving DecidableEq, Repr

/-- The row filter at the top of `compare_conditions_at_timepoint`:
restrict to the requested metric and time point, drop rows with no
assigned condition, and restrict to the requested plate when given
(numeric coercion of the value column is the identity here). -/
def timepointFiltered (df : List TRow) (metric : String) (time_point : ℤ)
    (plate_id : Option String) : List TRow :=
  let d := df.filter fun r => decide (r.metric = metric ∧ r.time_point = time_point)
  let d := d.filter fun r => decide (r.condition ≠ none)
  match plate_id with
  | none => d
  | some p => d.filter fun r => decide (r.plate_id = p)

/-- The descriptives `n` for one condition: count of valid (non-absent)
values in that condition's rows. -/
def conditionN (d : List TRow) (c : String) : ℕ :=
  ((d.filter fun r => decide (r.condition = some c)).filterMap fun r => r.value).length

/-- The distinct conditions of the filtered rows, ascending — the order
`groupby("condition")` (with its default sorting) produces them. -/
def conditionsOf (d : List TRow) : List String :=
  ((d.filterMap fun r => r.condition).dedup).insertionSort (· ≤ ·)

/-- `valid_conditions`: the conditions whose descriptives `n` meets
`min_n_per_group`. -/
def validConditions (d : List TRow) (min_n_per_group : ℕ) : List String :=
  (conditionsOf d).filter fun c => decide (min_n_per_group ≤ conditionN d c)

/-- The omnibus-test selection of `compare_conditions_at_timepoint`:
filter, count surviving conditions, fail when fewer than 2 remain, then
choose the test by group count and family.  The statistic/p-value values
are scipy floating-point computations, outside this model; the selected
test (and the `alternative="two-sided"` argument of Mann–Whitney) is what
the claims are about. -/
def compare_conditions_at_timepoint (df : List TRow) (metric : String)
    (time_point : ℤ) (test_family : TestFamily) (plate_id : Option String)
    (min_n_per_group : ℕ) : Except String OmnibusChoice :=
  let d := timepointFiltered df metric time_point plate_id
  let valid := validConditions d min_n_per_group
  let k := valid.length
  if k < 2 then
    .error "Not enough conditions with enough n at this time point."
  else if k = 2 then
    match test_family with
    | .parametric => .ok { test := "welch_ttest", alternative := none, k_groups := k }
    | .nonparametric =>
        .ok { test := "mannwhitney_u", alternative := some "two-sided", k_groups := k }
  else
    match test_family with
    | .parametric => .ok { test := "oneway_anova", alternative := none, k_groups := k }
    | .nonparametric => .ok { test := "kruskal_wallis", alternative := none, k_groups := k }

/-! ## Helper lemmas -/

/-- `getD` through `map`, at an in-range index. -/
theorem getD_map_eq {α β : Type} (f : α → β) (l : List α) (dα : α) (dβ : β) (i : ℕ)
    (hi : i < l.length) : (l.map f).getD i dβ = f (l.getD i dα) := by
  rw [List.getD_eq_getElem _ _ (by simpa using hi), List.getD_eq_getElem _ _ hi,
    List.getElem_map]

/-- Association-list lookup succeeds exactly on the stored keys. -/
theorem lookup_isSome_iff {β : Type} (l : List (String × β)) (a : String) :
    (l.lookup a).isSome = true ↔ a ∈ l.map Prod.fst := by
  induction l with
  | nil => simp [List.lookup]
  | cons p t ih =>
      obtain ⟨k, v⟩ := p
      by_cases h : a = k
      · subst h; simp [List.lookup]
      · simp [List.lookup, beq_false_of_ne h, ih, h]

/-- An `Except` is `isOk` exactly when it is an `.ok`. -/
theorem except_isOk_iff {ε α : Type} (e : Except ε α) : e.isOk = true ↔ ∃ a, e = .ok a := by
  cases e <;> simp [Except.isOk, Except.toBool]

/-! ## C10 — no classifier means no fill -/

/-- **C10.** With no metric classifier configured,
`apply_metric_missing_value_rules` returns its input unchanged, so the
master table is exactly the concatenation of the per-file tables — every
metric classifies as `"unknown"` and no absent value is zero-filled. -/
theorem no_handler_no_fill :
    (∀ df : List MRow, apply_metric_missing_value_rules none df = df) ∧
    (∀ (org : DataOrganizer) (files : List (ℤ × List LoadedRow)),
      create_master_dataframe org none files =
        (files.map fun f => processFile org none f.1 f.2).flatten) ∧
    (∀ (org : DataOrganizer) (files : List (ℤ × List LoadedRow)),
      ∀ r ∈ create_master_dataframe org none files, r.metric_type = "unknown") := by
  refine ⟨fun _ => rfl, fun org files => ?_, fun org files r hr => ?_⟩
  · simp only [create_master_dataframe, apply_metric_missing_value_rules]
  · simp only [create_master_dataframe, apply_metric_missing_value_rules,
      List.mem_flatten, List.mem_map] at hr
    obtain ⟨part, ⟨⟨tp, rows⟩, _, hpart⟩, hrpart⟩ := hr
    subst hpart
    simp only [processFile] at hrpart
    rcases hif : (decide (org.drop_ignored_wells = true ∧ ¬org.ignore_wells = [])) with _ | _
    · rw [if_neg (by simpa using hif)] at hrpart
      obtain ⟨s, _, hs⟩ := List.mem_map.mp hrpart
      rw [← hs]
    · rw [if_pos (by simpa using hif)] at hrpart
      obtain ⟨s, _, hs⟩ := List.mem_map.mp (List.mem_of_mem_filter hrpart)
      rw [← hs]

/-- **C10 witness.** A concrete master build with no classifier: the
absent count-metric value stays absent and the row classifies `"unknown"`. -/
theorem no_handler_no_fill_witness :
    ({ plate_id := "P", time_point := 0, well := "A1", condition := none,
       condition_color := none, metric := "Bursts", value := none,
       metric_type := "unknown" } : MRow).metric_type = "unknown" :=
  no_handler_no_fill.2.2
    { plate_id := "P", ignore_wells := [], well_to_condition := [],
      condition_to_color := [], drop_ignored_wells := true }
    [(0, [{ metric := "Bursts", well := "A1", value := none }])]
    { plate_id := "P", time_point := 0, well := "A1", condition := none,
      condition_color := none, metric := "Bursts", value := none,
      metric_type := "unknown" }
    (by decide)

/-! ## C1 — metric-type missing-value fill -/

/-- **C1.** With a classifier configured, the fill step preserves length
and, row by row: an absent value under metric type `"count"`/`"rate"`
becomes exactly 0 (and nothing else about the row changes); an absent
value under `"interval_duration"`/`"derived"`/`"unknown"` is left
untouched; a present value leaves the whole row untouched.  Consequently
no master row of count/rate type has an absent value. -/
theorem metric_missing_value_fill (h : ConfigHandler) :
    (∀ df : List MRow, (apply_metric_missing_value_rules (some h) df).length = df.length) ∧
    (∀ (df : List MRow) (i : ℕ), i < df.length →
      ((df.getD i default).value = none →
        ((df.getD i default).metric_type = "count" ∨
          (df.getD i default).metric_type = "rate") →
        (apply_metric_missing_value_rules (some h) df).getD i default =
          { df.getD i default with value := some 0 }) ∧
      ((df.getD i default).value = none →
        ((df.getD i default).metric_type = "interval_duration" ∨
          (df.getD i default).metric_type = "derived" ∨
          (df.getD i default).metric_type = "unknown") →
        (apply_metric_missing_value_rules (some h) df).getD i default = df.getD i default) ∧
      ((df.getD i default).value ≠ none →
        (apply_metric_missing_value_rules (some h) df).getD i default = df.getD i default)) ∧
    (∀ (org : DataOrganizer) (files : List (ℤ × List LoadedRow)),
      ∀ r ∈ create_master_dataframe org (some h) files,
        (r.metric_type = "count" ∨ r.metric_type = "rate") → r.value ≠ none) := by
  refine ⟨fun df => by simp [apply_metric_missing_value_rules], fun df i hi => ?_, ?_⟩
  · have hmap : (apply_metric_missing_value_rules (some h) df).getD i default =
        (fun r : MRow =>
          if r.value = none ∧ (r.metric_type = "count" ∨ r.metric_type = "rate") then
            { r with value := some 0 }
          else r) (df.getD i default) := by
      simpa [apply_metric_missing_value_rules] using
        getD_map_eq _ df default default i hi
    refine ⟨fun hv ht => ?_, fun hv ht => ?_, fun hv => ?_⟩
    · rw [hmap]; dsimp only; rw [if_pos ⟨hv, ht⟩]
    · rw [hmap]; dsimp only; rw [if_neg]
      rintro ⟨-, hcr⟩
      rcases ht with ht | ht | ht <;> rw [ht] at hcr <;>
        rcases hcr with hcr | hcr <;> simp at hcr
    · rw [hmap]; dsimp only; rw [if_neg]
      rintro ⟨hv0, -⟩
      exact hv hv0
  · intro org files r hr hcr
    simp only [create_master_dataframe, apply_metric_missing_value_rules,
      List.mem_map] at hr
    obtain ⟨s, -, hs⟩ := hr
    subst hs
    by_cases hc : s.value = none ∧ (s.metric_type = "count" ∨ s.metric_type = "rate")
    · rw [if_pos hc]; simp
    · rw [if_neg hc]
      rw [if_neg hc] at hcr
      intro hv
      exact hc ⟨hv, hcr⟩

/-- **C1 witness.** A concrete absent count-metric value is filled to 0. -/
theorem metric_missing_value_fill_witness :
    (apply_metric_missing_value_rules
        (some { count_metrics := ["Bursts"], rate_metrics := [],
                interval_duration_metrics := [], derived_metrics := [] })
        [{ plate_id := "P", time_point := 0, well := "A1", condition := none,
           condition_color := none, metric := "Bursts", value := none,
           metric_type := "count" }]).getD 0 default =
      { plate_id := "P", time_point := 0, well := "A1", condition := none,
        condition_color := none, metric := "Bursts", value := some 0,
        metric_type := "count" } :=
  ((metric_missing_value_fill
      { count_metrics := ["Bursts"], rate_metrics := [],
        interval_duration_metrics := [], derived_metrics := [] }).2.1
    [{ plate_id := "P", time_point := 0, well := "A1", condition := none,
       condition_color := none, metric := "Bursts", value := none,
       metric_type := "count" }] 0 (by decide)).1 (by decide) (by decide)

/-! ## C2 — ignored wells are *not* validated at organizer construction -/

/-- `addConditionWells` succeeds whenever the condition's canonical wells
are duplicate-free and disjoint from the keys accumulated so far, and then
appends exactly those keys. -/
theorem addConditionWells_ok (name : String) (ws : List String)
    (acc : List (String × String)) (hnd : (ws.map canonWell).Nodup)
    (hdisj : ∀ w ∈ ws.map canonWell, w ∉ acc.map Prod.fst) :
    ∃ acc', addConditionWells name ws acc = .ok acc' ∧
      acc'.map Prod.fst = acc.map Prod.fst ++ ws.map canonWell := by
  induction ws generalizing acc with
  | nil => exact ⟨acc, rfl, by simp [addConditionWells]⟩
  | cons w rest ih =>
      have hw : canonWell w ∉ acc.map Prod.fst := hdisj _ (by simp)
      have hlk : ¬((acc.lookup (canonWell w)).isSome = true) := fun hs =>
        hw ((lookup_isSome_iff _ _).mp hs)
      simp only [List.map_cons, List.nodup_cons] at hnd
      have hdisj' : ∀ x ∈ rest.map canonWell,
          x ∉ (acc ++ [(canonWell w, name)]).map Prod.fst := by
        intro x hx
        simp only [List.map_append, List.map_cons, List.map_nil, List.mem_append,
          List.mem_singleton]
        rintro (hxa | hxw)
        · exact hdisj x (by simp [hx]) hxa
        · exact hnd.1 (hxw ▸ hx)
      obtain ⟨acc', heq, hkeys⟩ := ih (acc ++ [(canonWell w, name)]) hnd.2 hdisj'
      refine ⟨acc', ?_, ?_⟩
      · simp only [addConditionWells]
        rw [if_neg hlk]
        exact heq
      · rw [hkeys]; simp

/-- `create_well_mapping` succeeds whenever the concatenated canonical
well list is duplicate-free and disjoint from the accumulator's keys. -/
theorem create_well_mapping_ok (conds : List (String × ConditionInfo))
    (acc : List (String × String))
    (hnd : ((conds.map fun p => p.2.wells.map canonWell).flatten).Nodup)
    (hdisj : ∀ w ∈ (conds.map fun p => p.2.wells.map canonWell).flatten,
      w ∉ acc.map Prod.fst) :
    ∃ acc', create_well_mapping conds acc = .ok acc' ∧
      acc'.map Prod.fst =
        acc.map Prod.fst ++ (conds.map fun p => p.2.wells.map canonWell).flatten := by
  induction conds generalizing acc with
  | nil => exact ⟨acc, rfl, by simp [create_well_mapping]⟩
  | cons c rest ih =>
      obtain ⟨name, info⟩ := c
      simp only [List.map_cons, List.flatten_cons, List.nodup_append] at hnd
      obtain ⟨hnd₁, hnd₂, hdisj₁₂⟩ := hnd
      obtain ⟨acc₁, heq₁, hkeys₁⟩ := addConditionWells_ok name info.wells acc hnd₁
        (fun w hw => hdisj w (by simp [hw]))
      have hdisj' : ∀ x ∈ (rest.map fun p => p.2.wells.map canonWell).flatten,
          x ∉ acc₁.map Prod.fst := by
        intro x hx
        rw [hkeys₁]
        simp only [List.mem_append]
        rintro (hxa | hxw)
        · exact hdisj x (by simp [hx]) hxa
        · exact hdisj₁₂ hxw hx
      obtain ⟨acc₂, heq₂, hkeys₂⟩ := ih acc₁ hnd₂ hdisj'
      refine ⟨acc₂, ?_, ?_⟩
      · show (addConditionWells name info.wells acc >>= fun acc' =>
          create_well_mapping rest acc') = .ok acc₂
        rw [heq₁]
        exact heq₂
      · rw [hkeys₂, hkeys₁]; simp

/-- **C2 counterexample.** A configuration whose `ignore_wells` overlaps a
condition's wells (`"A1"` is both assigned to `"Control"` and ignored)
still constructs a `DataOrganizer` successfully — no configuration error
is raised. -/
theorem ignore_overlap_not_rejected :
    "A1" ∈ (ExperimentConfig.mk "Plate_X" [("Control", ⟨["A1"], some "#1f77b4"⟩)]
        ["A1"]).ignore_wells ∧
    "A1" ∈ assignedCanonWells
      (ExperimentConfig.mk "Plate_X" [("Control", ⟨["A1"], some "#1f77b4"⟩)] ["A1"]) ∧
    (DataOrganizer.build
      (ExperimentConfig.mk "Plate_X" [("Control", ⟨["A1"], some "#1f77b4"⟩)] ["A1"])
      true).isOk = true := by
  decide

/-- **C2 (amended).** Organizer construction performs no
ignored-wells-vs-assigned-wells validation: it succeeds whenever the
(canonicalized) condition-assigned wells are duplicate-free — whatever
`ignore_wells` contains — and its success or failure never depends on the
`ignore_wells` list at all.  (The overlap check lives in the interactive
config *creator*, not in `DataOrganizer`.) -/
theorem organizer_build_ignores_overlap (cfg : ExperimentConfig) (drop : Bool) :
    ((assignedCanonWells cfg).Nodup → (DataOrganizer.build cfg drop).isOk = true) ∧
    (∀ ign : List String,
      (DataOrganizer.build { cfg with ignore_wells := ign } drop).isOk =
        (DataOrganizer.build cfg drop).isOk) := by
  constructor
  · intro hnd
    obtain ⟨acc', heq, -⟩ :=
      create_well_mapping_ok cfg.conditions [] hnd (by simp)
    simp only [DataOrganizer.build, heq]
    rfl
  · intro ign
    cases h : create_well_mapping cfg.conditions [] <;>
      simp only [DataOrganizer.build, h] <;> rfl

/-- **C2 witness.** The amended theorem applied to the overlapping
configuration: duplicate-free assigned wells, so construction succeeds
despite the overlap. -/
theorem organizer_build_ignores_overlap_witness :
    (DataOrganizer.build
      (ExperimentConfig.mk "Plate_X" [("Control", ⟨["A1"], some "#1f77b4"⟩)] ["A1"])
      true).isOk = true :=
  (organizer_build_ignores_overlap
    (ExperimentConfig.mk "Plate_X" [("Control", ⟨["A1"], some "#1f77b4"⟩)] ["A1"])
    true).1 (by decide)

/-! ## C9 — helper columns in the `baseline_normalize` output -/

/-- An underscore-prefixed (working/helper) column name. -/
def underscorePrefixed (s : String) : Bool := s.data.head? = some '_'

/-- **C9 counterexample.** On the master-table schema, the frame returned
by `baseline_normalize` still contains the underscore-prefixed working
column `_baseline_exclusion_reason` (added between the merge and the
output; only `_baseline_value` is dropped). -/
theorem helper_reason_column_retained :
    "_baseline_exclusion_reason" ∈
      baseline_normalize_columns ["plate_id", "time_point", "well", "metric", "value"]
        "value_norm" ∧
    underscorePrefixed "_baseline_exclusion_reason" = true := by
  decide

/-- **C9 (amended).** Of the underscore-prefixed working columns,
`baseline_normalize` drops exactly the `_baseline_value` join column from
its output; the `_baseline_exclusion_reason` working column is retained
(and is the only underscore-prefixed column of the output whenever the
input frame and the normalized-column name carry none). -/
theorem baseline_normalize_drops_only_join_column (cols : List String) (ncol : String)
    (hcols : ∀ c ∈ cols, underscorePrefixed c = false)
    (hncol : underscorePrefixed ncol = false) :
    "_baseline_value" ∉ baseline_normalize_columns cols ncol ∧
    (baseline_normalize_columns cols ncol).filter underscorePrefixed =
      ["_baseline_exclusion_reason"] := by
  have hbv : "_baseline_value" ∉ cols := fun hmem => absurd (hcols _ hmem) (by decide)
  have hber : "_baseline_exclusion_reason" ∉ cols := fun hmem =>
    absurd (hcols _ hmem) (by decide)
  have hn_bv : ncol ≠ "_baseline_value" := fun he => absurd hncol (by rw [he]; decide)
  have hn_ber : ncol ≠ "_baseline_exclusion_reason" := fun he =>
    absurd hncol (by rw [he]; decide)
  have hber' : "_baseline_exclusion_reason" ∉ cols ++ ["_baseline_value"] := by
    simp only [List.mem_append, List.mem_singleton]
    rintro (hx | hx)
    · exact hber hx
    · exact absurd hx (by decide)
  have hfilter_cols : cols.filter (fun c => decide (c ≠ "_baseline_value")) = cols :=
    List.filter_eq_self.mpr fun a ha => by
      simpa using fun he : a = "_baseline_value" => hbv (he ▸ ha)
  have hfilter_und : cols.filter underscorePrefixed = [] :=
    List.filter_eq_nil_iff.mpr fun a ha => by simp [hcols a ha]
  simp only [baseline_normalize_columns, appendIfNew]
  rw [if_neg hbv, if_neg hber']
  by_cases hn : ncol ∈ cols ++ ["_baseline_value"] ++ ["_baseline_exclusion_reason"]
  · rw [if_pos hn]
    constructor
    · simp only [List.mem_filter, List.mem_append, List.mem_singleton]
      rintro ⟨-, hd⟩
      simp at hd
    · simp only [List.filter_append, hfilter_cols]
      rw [show (["_baseline_value"].filter fun c => decide (c ≠ "_baseline_value")) =
          [] from by decide]
      rw [show (["_baseline_exclusion_reason"].filter
          fun c => decide (c ≠ "_baseline_value")) = ["_baseline_exclusion_reason"] from
          by decide]
      simp only [List.filter_append, hfilter_und]
      rw [show ["_baseline_exclusion_reason"].filter underscorePrefixed =
          ["_baseline_exclusion_reason"] from by decide]
      simp
  · rw [if_neg hn]
    constructor
    · simp only [List.mem_filter, List.mem_append, List.mem_singleton]
      rintro ⟨-, hd⟩
      simp at hd
    · simp only [List.filter_append, hfilter_cols]
      rw [show (["_baseline_value"].filter fun c => decide (c ≠ "_baseline_value")) =
          [] from by decide]
      rw [show (["_baseline_exclusion_reason"].filter
          fun c => decide (c ≠ "_baseline_value")) = ["_baseline_exclusion_reason"] from
          by decide]
      rw [show [ncol].filter (fun c => decide (c ≠ "_baseline_value")) = [ncol] from by
        simp [hn_bv]]
      simp only [List.filter_append, hfilter_und]
      rw [show ["_baseline_exclusion_reason"].filter underscorePrefixed =
          ["_baseline_exclusion_reason"] from by decide]
      rw [show [ncol].filter underscorePrefixed = [] from by simp [hncol]]
      simp

/-- **C9 witness.** The amended theorem at the minimal normalization
schema: the only underscore-prefixed output column is
`_baseline_exclusion_reason`, and `_baseline_value` is gone. -/
theorem baseline_normalize_drops_only_join_column_witness :
    "_baseline_value" ∉
      baseline_normalize_columns ["time_point", "well", "metric", "value"] "value_norm" :=
  (baseline_normalize_drops_only_join_column ["time_point", "well", "metric", "value"]
    "value_norm" (by decide) (by decide)).1

/-! ## C3, C4 — exclusion reasons and the normalization round trip -/

/-- The grouping key, read off an output row (whose key fields are the
canonicalized input fields). -/
def bnKey (hasPlate : Bool) (r : BNRow) : Option String × String × String :=
  (if hasPlate then some r.plate_id else none, r.well, r.metric)

/-- Every output row of `baseline_normalize` is the annotation of some
canonicalized input row. -/
theorem mem_baseline_normalize {hasPlate : Bool} {df : List NRow} {tp : ℤ}
    {method : NormMethod} {exz keep : Bool} {r : BNRow}
    (hr : r ∈ baseline_normalize hasPlate df tp method exz keep) :
    ∃ s ∈ df.map canonNRow,
      r = annotateNRow hasPlate (df.map canonNRow) tp method exz s := by
  simp only [baseline_normalize] at hr
  cases keep
  · have hr' : (∃ a ∈ df, annotateNRow hasPlate (df.map canonNRow) tp method exz
        (canonNRow a) = r) ∧ r.baseline_exclusion_reason = none := by simpa using hr
    obtain ⟨⟨a, ha, hmk⟩, -⟩ := hr'
    exact ⟨canonNRow a, List.mem_map_of_mem _ ha, hmk.symm⟩
  · have hr' : ∃ a ∈ df, annotateNRow hasPlate (df.map canonNRow) tp method exz
        (canonNRow a) = r := by simpa using hr
    obtain ⟨a, ha, hmk⟩ := hr'
    exact ⟨canonNRow a, List.mem_map_of_mem _ ha, hmk.symm⟩

/-- Case analysis of `exclusionReason`: exactly the three outcomes, with
`baseline_missing` taking precedence and `baseline_zero` only for
ratio/percent with zero-exclusion enabled. -/
theorem exclusionReason_spec (method : NormMethod) (exz : Bool) (b : Option ℚ) :
    (exclusionReason method exz b = some "baseline_missing" ↔ b = none) ∧
    (exclusionReason method exz b = some "baseline_zero" ↔
      (b = some 0 ∧ (method = .ratio ∨ method = .percent) ∧ exz = true)) ∧
    (method = .delta → exclusionReason method exz b ≠ some "baseline_zero") ∧
    (exclusionReason method exz b = none ∨
      exclusionReason method exz b = some "baseline_missing" ∨
      exclusionReason method exz b = some "baseline_zero") := by
  unfold exclusionReason
  by_cases hb : b = none
  · rw [if_pos hb]
    refine ⟨by simp [hb], ?_, ?_, by simp⟩
    · constructor
      · intro h; exact absurd h (by decide)
      · rintro ⟨hb0, -, -⟩; rw [hb0] at hb; exact absurd hb (by simp)
    · intro _ h; exact absurd h (by decide)
  · rw [if_neg hb]
    by_cases hc : (method = .ratio ∨ method = .percent) ∧ exz = true ∧ b = some 0
    · rw [if_pos hc]
      refine ⟨?_, ?_, ?_, by simp⟩
      · constructor
        · intro h; exact absurd h (by decide)
        · intro h; exact absurd h hb
      · exact ⟨fun _ => ⟨hc.2.2, hc.1, hc.2.1⟩, fun _ => rfl⟩
      · intro hd
        rcases hc.1 with h | h <;> rw [hd] at h <;> exact absurd h (by decide)
    · rw [if_neg hc]
      refine ⟨by simp [hb], ?_, by simp, by simp⟩
      constructor
      · intro h; exact absurd h (by simp)
      · rintro ⟨hb0, hm, hz⟩; exact absurd ⟨hm, hz, hb0⟩ hc

/-- **C3.** Per-row exclusion accounting of `baseline_normalize`: a row is
`"baseline_missing"` exactly when its group's baseline is absent, and
`"baseline_zero"` exactly when the baseline is present and exactly 0, the
method is ratio or percent, and zero-exclusion is enabled; `delta` never
yields `"baseline_zero"`; and every row carries at most one reason (the
single reason column takes one of the three outcomes, with missing
preceding zero). -/
theorem baseline_exclusion_reason_rules (hasPlate : Bool) (df : List NRow) (tp : ℤ)
    (method : NormMethod) (exz : Bool) :
    ∀ r ∈ baseline_normalize hasPlate df tp method exz true,
      (r.baseline_exclusion_reason = some "baseline_missing" ↔
        baselineOf hasPlate (df.map canonNRow) tp (bnKey hasPlate r) = none) ∧
      (r.baseline_exclusion_reason = some "baseline_zero" ↔
        (baselineOf hasPlate (df.map canonNRow) tp (bnKey hasPlate r) = some 0 ∧
          (method = .ratio ∨ method = .percent) ∧ exz = true)) ∧
      (method = .delta → r.baseline_exclusion_reason ≠ some "baseline_zero") ∧
      (r.baseline_exclusion_reason = none ∨
        r.baseline_exclusion_reason = some "baseline_missing" ∨
        r.baseline_exclusion_reason = some "baseline_zero") := by
  intro r hr
  obtain ⟨s, hs, rfl⟩ := mem_baseline_normalize hr
  have hkey : bnKey hasPlate (annotateNRow hasPlate (df.map canonNRow) tp method exz s) =
      nKey hasPlate s := rfl
  have hreason :
      (annotateNRow hasPlate (df.map canonNRow) tp method exz s).baseline_exclusion_reason =
        exclusionReason method exz
          (baselineOf hasPlate (df.map canonNRow) tp (nKey hasPlate s)) := rfl
  rw [hkey, hreason]
  exact exclusionReason_spec method exz _

/-- **C3 witness.** A row whose group has no baseline row at all is
reported `"baseline_missing"`; the theorem recovers the absent baseline. -/
theorem baseline_exclusion_reason_rules_witness :
    baselineOf true ([NRow.mk "P" 1 "A1" "M" (some 5)].map canonNRow) 0
      (bnKey true (BNRow.mk "P" 1 "A1" "M" (some 5) (some "baseline_missing") none)) =
      none :=
  ((baseline_exclusion_reason_rules true [NRow.mk "P" 1 "A1" "M" (some 5)] 0 .ratio true
      (BNRow.mk "P" 1 "A1" "M" (some 5) (some "baseline_missing") none)
      (by decide)).1).mp (by decide)

/-- **C4 (amended).** Round trip of `baseline_normalize`: an excluded row
always gets an absent normalized value; a non-excluded row whose value
equals its group baseline `b` normalizes to exactly 0 under `delta`
unconditionally, and to exactly 1 (`ratio`) resp. 100 (`percent`)
*provided* `b ≠ 0` — when zero-exclusion is enabled every non-excluded
ratio/percent row has `b ≠ 0`, but with it disabled a zero baseline
produces a non-finite `0/0`, not 1. -/
theorem baseline_normalize_round_trip (hasPlate : Bool) (df : List NRow) (tp : ℤ)
    (method : NormMethod) (exz keep : Bool) :
    ∀ r ∈ baseline_normalize hasPlate df tp method exz keep,
      (r.baseline_exclusion_reason ≠ none → r.value_norm = none) ∧
      (∀ v b : ℚ, r.baseline_exclusion_reason = none → r.value = some v →
        baselineOf hasPlate (df.map canonNRow) tp (bnKey hasPlate r) = some b →
        v = b →
        (method = .delta → r.value_norm = some 0) ∧
        (method = .ratio → b ≠ 0 → r.value_norm = some 1) ∧
        (method = .percent → b ≠ 0 → r.value_norm = some 100)) := by
  intro r hr
  obtain ⟨s, hs, rfl⟩ := mem_baseline_normalize hr
  have hreason :
      (annotateNRow hasPlate (df.map canonNRow) tp method exz s).baseline_exclusion_reason =
        exclusionReason method exz
          (baselineOf hasPlate (df.map canonNRow) tp (nKey hasPlate s)) := rfl
  have hnorm :
      (annotateNRow hasPlate (df.map canonNRow) tp method exz s).value_norm =
        if exclusionReason method exz
            (baselineOf hasPlate (df.map canonNRow) tp (nKey hasPlate s)) = none then
          normValue method s.value
            (baselineOf hasPlate (df.map canonNRow) tp (nKey hasPlate s))
        else none := rfl
  constructor
  · intro hne
    rw [hnorm]
    exact if_neg (hreason ▸ hne)
  · intro v b hnone hv hb hvb
    have hnone' : exclusionReason method exz
        (baselineOf hasPlate (df.map canonNRow) tp (nKey hasPlate s)) = none :=
      hreason ▸ hnone
    have hv' : s.value = some v := hv
    have hb' : baselineOf hasPlate (df.map canonNRow) tp (nKey hasPlate s) = some b := hb
    subst hvb
    rw [hnorm, if_pos hnone', hv', hb']
    refine ⟨fun hm => ?_, fun hm hbne => ?_, fun hm hbne => ?_⟩ <;> subst hm
    · simp [normValue]
    · simp only [normValue, if_neg hbne]
      rw [div_self hbne]
    · simp only [normValue, if_neg hbne]
      rw [mul_div_assoc, div_self hbne, mul_one]

/-- Evaluation of the zero-baseline run: with zero-exclusion disabled, the
single row (value 0, baseline 0) is *not* excluded, and its ratio
normalization is the non-finite `0/0`, i.e. absent. -/
theorem zero_baseline_run_eval :
    baseline_normalize true [NRow.mk "P1" 0 "A1" "M" (some 0)] 0 .ratio false false =
      [BNRow.mk "P1" 0 "A1" "M" (some 0) none none] := by
  have hcr : canonNRow (NRow.mk "P1" 0 "A1" "M" (some 0)) =
      NRow.mk "P1" 0 "A1" "M" (some 0) := by decide
  have hb : baselineOf true [NRow.mk "P1" 0 "A1" "M" (some 0)] 0
      (some "P1", "A1", "M") = some 0 := by
    simp [baselineOf, nKey]
  simp [baseline_normalize, hcr, annotateNRow, nKey, hb, exclusionReason, normValue]

/-- **C4 counterexample.** With zero-exclusion disabled, the row
(value 0, group baseline 0) is non-excluded, its value equals its group's
baseline, yet `ratio` normalization yields an absent value (the float
`0/0`), not 1.0. -/
theorem zero_baseline_ratio_not_one :
    ((baseline_normalize true [NRow.mk "P1" 0 "A1" "M" (some 0)] 0 .ratio false
        false).getD 0 default).baseline_exclusion_reason = none ∧
    ((baseline_normalize true [NRow.mk "P1" 0 "A1" "M" (some 0)] 0 .ratio false
        false).getD 0 default).value = some 0 ∧
    baselineOf true ([NRow.mk "P1" 0 "A1" "M" (some 0)].map canonNRow) 0
      (bnKey true ((baseline_normalize true [NRow.mk "P1" 0 "A1" "M" (some 0)] 0 .ratio
        false false).getD 0 default)) = some 0 ∧
    ((baseline_normalize true [NRow.mk "P1" 0 "A1" "M" (some 0)] 0 .ratio false
        false).getD 0 default).value_norm ≠ some 1 := by
  rw [zero_baseline_run_eval]
  have hcr : canonNRow (NRow.mk "P1" 0 "A1" "M" (some 0)) =
      NRow.mk "P1" 0 "A1" "M" (some 0) := by decide
  refine ⟨rfl, rfl, ?_, by simp⟩
  simp [hcr, baselineOf, nKey, bnKey]

/-- Evaluation of a ratio run on a value equal to its (nonzero) baseline. -/
theorem ratio_run_eval :
    baseline_normalize true [NRow.mk "P" 0 "A1" "M" (some 2)] 0 .ratio true false =
      [BNRow.mk "P" 0 "A1" "M" (some 2) none (some 1)] := by
  have hcr : canonNRow (NRow.mk "P" 0 "A1" "M" (some 2)) =
      NRow.mk "P" 0 "A1" "M" (some 2) := by decide
  have hb : baselineOf true [NRow.mk "P" 0 "A1" "M" (some 2)] 0
      (some "P", "A1", "M") = some 2 := by
    simp [baselineOf, nKey]
  simp [baseline_normalize, hcr, annotateNRow, nKey, hb, exclusionReason, normValue]

/-- **C4 witness.** The amended round-trip theorem applied to a concrete
run: value 2 at a baseline of 2 under `ratio` normalizes to exactly 1. -/
theorem baseline_normalize_round_trip_witness :
    (BNRow.mk "P" 0 "A1" "M" (some 2) none (some 1)).value_norm = some (1 : ℚ) := by
  have hmem : BNRow.mk "P" 0 "A1" "M" (some 2) none (some 1) ∈
      baseline_normalize true [NRow.mk "P" 0 "A1" "M" (some 2)] 0 .ratio true false := by
    rw [ratio_run_eval]
    exact List.mem_singleton_self _
  have hb : baselineOf true ([NRow.mk "P" 0 "A1" "M" (some 2)].map canonNRow) 0
      (bnKey true (BNRow.mk "P" 0 "A1" "M" (some 2) none (some 1))) = some 2 := by
    have hcr : canonNRow (NRow.mk "P" 0 "A1" "M" (some 2)) =
        NRow.mk "P" 0 "A1" "M" (some 2) := by decide
    simp [hcr, baselineOf, nKey, bnKey]
  exact ((baseline_normalize_round_trip true [NRow.mk "P" 0 "A1" "M" (some 2)] 0 .ratio
      true false _ hmem).2 2 2 rfl rfl hb rfl).2.1 rfl (by norm_num)

/-! ## C7 — the `drop_well_metric` filter -/

/-- The left-merge-with-indicator followed by the `_drop != True` filter is
a plain filter on the indicator. -/
theorem indicator_filter_map {α : Type} (df : List α) (f : α → Bool) :
    ((df.map fun r => (r, f r)).filter fun p => !p.2).map Prod.fst =
      df.filter fun r => !f r := by
  induction df with
  | nil => rfl
  | cons a t ih => by_cases h : f a <;> simp [h, ih]

/-- **C7.** `drop_well_metric` removes exactly the rows whose
`(plate_id, well, metric)` combination has some flagged row: the output is
the input filtered to combinations with no flagged member, so a flagged
combination disappears at every time point and an unflagged combination is
fully retained. -/
theorem drop_well_metric_removes_combination (df : List FlagRow) :
    (apply_outlier_filter df .drop_well_metric =
      df.filter fun r => !(df.any fun x => x.is_outlier && decide (wmKey x = wmKey r))) ∧
    (∀ r ∈ df, (∃ x ∈ df, x.is_outlier = true ∧ wmKey x = wmKey r) →
      r ∉ apply_outlier_filter df .drop_well_metric) ∧
    (∀ r ∈ df, ¬(∃ x ∈ df, x.is_outlier = true ∧ wmKey x = wmKey r) →
      r ∈ apply_outlier_filter df .drop_well_metric) := by
  have hbadmem : ∀ k, k ∈ ((df.filter fun r => r.is_outlier).map wmKey).dedup ↔
      ∃ x ∈ df, x.is_outlier = true ∧ wmKey x = k := by
    intro k
    rw [List.mem_dedup]
    simp [List.mem_map, List.mem_filter, and_assoc]
  have hmain : apply_outlier_filter df .drop_well_metric =
      df.filter fun r => !(df.any fun x => x.is_outlier && decide (wmKey x = wmKey r)) := by
    simp only [apply_outlier_filter]
    by_cases hb : (((df.filter fun r => r.is_outlier).map wmKey).dedup).isEmpty = true
    · rw [if_pos hb]
      have hnone : ∀ x ∈ df, x.is_outlier = false := by
        rw [List.isEmpty_iff, List.dedup_eq_nil, List.map_eq_nil_iff,
          List.filter_eq_nil_iff] at hb
        intro x hx
        simpa using hb x hx
      symm
      apply List.filter_eq_self.mpr
      intro a ha
      simp only [Bool.not_eq_true', List.any_eq_false]
      intro x hx
      simp [hnone x hx]
    · rw [if_neg hb, indicator_filter_map]
      apply List.filter_congr
      intro a _
      have hdec : decide (wmKey a ∈ ((df.filter fun r => r.is_outlier).map wmKey).dedup) =
          df.any fun x => x.is_outlier && decide (wmKey x = wmKey a) := by
        by_cases hk : wmKey a ∈ ((df.filter fun r => r.is_outlier).map wmKey).dedup
        · rw [decide_eq_true hk]
          symm
          rw [List.any_eq_true]
          obtain ⟨x, hx, hxo, hxk⟩ := (hbadmem _).mp hk
          exact ⟨x, hx, by simp [hxo, hxk]⟩
        · rw [decide_eq_false hk]
          symm
          rw [List.any_eq_false]
          intro x hx
          simp only [Bool.and_eq_true, decide_eq_true_eq, not_and]
          intro hxo hxk
          exact hk ((hbadmem _).mpr ⟨x, hx, hxo, hxk⟩)
      rw [hdec]
  refine ⟨hmain, fun r hr hex hmem => ?_, fun r hr hnex => ?_⟩
  · rw [hmain] at hmem
    have := (List.mem_filter.mp hmem).2
    simp only [Bool.not_eq_true', List.any_eq_false] at this
    obtain ⟨x, hx, hxo, hxk⟩ := hex
    have hx' := this x hx
    simp [hxo, hxk] at hx'
  · rw [hmain]
    refine List.mem_filter.mpr ⟨hr, ?_⟩
    simp only [Bool.not_eq_true', List.any_eq_false]
    intro x hx
    simp only [Bool.and_eq_true, decide_eq_true_eq, not_and]
    intro hxo hxk
    exact hnex ⟨x, hx, hxo, hxk⟩

/-- **C7 witness.** In a table where the `("P","A1","M")` series has one
flagged time point, the unflagged row of the untouched `("P","B1","M")`
series is retained by `drop_well_metric`. -/
theorem drop_well_metric_removes_combination_witness :
    FlagRow.mk "P" 0 "B1" (some "c") "M" none .zscore 3 none false 3 ∈
      apply_outlier_filter
        [FlagRow.mk "P" 0 "A1" (some "c") "M" none .zscore 3 none true 3,
         FlagRow.mk "P" 1 "A1" (some "c") "M" none .zscore 3 none false 3,
         FlagRow.mk "P" 0 "B1" (some "c") "M" none .zscore 3 none false 3]
        .drop_well_metric :=
  (drop_well_metric_removes_combination
    [FlagRow.mk "P" 0 "A1" (some "c") "M" none .zscore 3 none true 3,
     FlagRow.mk "P" 1 "A1" (some "c") "M" none .zscore 3 none false 3,
     FlagRow.mk "P" 0 "B1" (some "c") "M" none .zscore 3 none false 3]).2.2
    (FlagRow.mk "P" 0 "B1" (some "c") "M" none .zscore 3 none false 3)
    (by decide) (by decide)

/-! ## C8 — `flag_outliers` drops rows with an unassigned condition -/

/-- **C8 (code bug).** `flag_outliers` is *not* a pure annotation pass:
`groupby` over the default key columns silently drops every row whose
`condition` is absent (master tables legitimately contain such rows), so
the one-row input below comes back empty instead of annotated — the
docstring says "Does NOT remove or modify values". -/
theorem flag_outliers_drops_unassigned_rows :
    flag_outliers [QRow.mk "P1" 0 "A1" none "M" (some 1)]
      (OutlierSpec.mk .zscore 3 3) = [] ∧
    ([QRow.mk "P1" 0 "A1" none "M" (some 1)] : List QRow).length = 1 :=
  ⟨rfl, rfl⟩

/-! ## C6 — omnibus-test selection -/

/-- The number of surviving conditions computed by the comparator equals
the number of *distinct* condition values, among the filtered rows, that
have at least `min_n_per_group` valid values. -/
theorem validConditions_length (d : List TRow) (min_n : ℕ) :
    (validConditions d min_n).length =
      ((d.filterMap fun r => r.condition).toFinset.filter
        fun c => min_n ≤ conditionN d c).card := by
  unfold validConditions conditionsOf
  have hperm :
      (((d.filterMap fun r => r.condition).dedup.insertionSort (· ≤ ·)).filter
          fun c => decide (min_n ≤ conditionN d c)).length =
        ((d.filterMap fun r => r.condition).dedup.filter
          fun c => decide (min_n ≤ conditionN d c)).length :=
    ((List.perm_insertionSort (· ≤ ·) (d.filterMap fun r => r.condition).dedup).filter
      _).length_eq
  rw [hperm]
  have hnd : ((d.filterMap fun r => r.condition).dedup.filter
      fun c => decide (min_n ≤ conditionN d c)).Nodup :=
    (List.nodup_dedup _).filter _
  rw [← List.toFinset_card_of_nodup hnd]
  congr 1
  ext c
  simp [List.mem_filter, List.mem_dedup, Finset.mem_filter]

/-- **C6.** Omnibus-test selection: with `k` the number of distinct
conditions meeting the minimum per-group sample size among the filtered
rows, the comparator errors when `k < 2`; at `k = 2` it selects Welch's
t-test (parametric) or two-sided Mann–Whitney U, reported
`"mannwhitney_u"` (nonparametric); at `k ≥ 3` it selects one-way ANOVA
(parametric) or Kruskal–Wallis (nonparametric). -/
theorem omnibus_test_selection (df : List TRow) (metric : String) (tp : ℤ)
    (fam : TestFamily) (plate : Option String) (min_n : ℕ) :
    ∀ k : ℕ,
      k = (((timepointFiltered df metric tp plate).filterMap fun r =>
          r.condition).toFinset.filter
        fun c => min_n ≤ conditionN (timepointFiltered df metric tp plate) c).card →
      ((k < 2 → ∃ e,
        compare_conditions_at_timepoint df metric tp fam plate min_n = .error e) ∧
      (k = 2 → fam = .parametric →
        compare_conditions_at_timepoint df metric tp fam plate min_n =
          .ok (OmnibusChoice.mk "welch_ttest" none 2)) ∧
      (k = 2 → fam = .nonparametric →
        compare_conditions_at_timepoint df metric tp fam plate min_n =
          .ok (OmnibusChoice.mk "mannwhitney_u" (some "two-sided") 2)) ∧
      (3 ≤ k → fam = .parametric →
        compare_conditions_at_timepoint df metric tp fam plate min_n =
          .ok (OmnibusChoice.mk "oneway_anova" none k)) ∧
      (3 ≤ k → fam = .nonparametric →
        compare_conditions_at_timepoint df metric tp fam plate min_n =
          .ok (OmnibusChoice.mk "kruskal_wallis" none k))) := by
  intro k hk
  have hlen : (validConditions (timepointFiltered df metric tp plate) min_n).length = k := by
    rw [hk, validConditions_length]
  simp only [compare_conditions_at_timepoint, hlen]
  refine ⟨fun h2 => ?_, fun h2 hf => ?_, fun h2 hf => ?_, fun h3 hf => ?_, fun h3 hf => ?_⟩
  · rw [if_pos h2]
    exact ⟨_, rfl⟩
  · subst h2 hf; rfl
  · subst h2 hf; rfl
  · subst hf
    rw [if_neg (by omega), if_neg (by omega)]
  · subst hf
    rw [if_neg (by omega), if_neg (by omega)]

/-- **C6 witness.** Two conditions of three valid values each, at the
requested metric and time point, nonparametric family: the comparator
reports the two-sided Mann–Whitney U test. -/
theorem omnibus_test_selection_witness :
    compare_conditions_at_timepoint
      [TRow.mk "P" 0 (some "A") "M" (some 1), TRow.mk "P" 0 (some "A") "M" (some 1),
       TRow.mk "P" 0 (some "A") "M" (some 1), TRow.mk "P" 0 (some "B") "M" (some 1),
       TRow.mk "P" 0 (some "B") "M" (some 1), TRow.mk "P" 0 (some "B") "M" (some 1)]
      "M" 0 .nonparametric none 3 =
      .ok (OmnibusChoice.mk "mannwhitney_u" (some "two-sided") 2) :=
  ((omnibus_test_selection
      [TRow.mk "P" 0 (some "A") "M" (some 1), TRow.mk "P" 0 (some "A") "M" (some 1),
       TRow.mk "P" 0 (some "A") "M" (some 1), TRow.mk "P" 0 (some "B") "M" (some 1),
       TRow.mk "P" 0 (some "B") "M" (some 1), TRow.mk "P" 0 (some "B") "M" (some 1)]
      "M" 0 .nonparametric none 3) 2 (by decide)).2.2.1 rfl rfl

/-! ## C5 — p-value adjustment -/

/-- Monotone access into a sorted list. -/
theorem sorted_getD_mono (l : List ℚ) (h : l.Sorted (· ≤ ·)) {i j : ℕ} (hij : i ≤ j)
    (hj : j < l.length) : l.getD i 0 ≤ l.getD j 0 := by
  rcases lt_or_eq_of_le hij with hlt | rfl
  · rw [List.getD_eq_getElem _ _ (lt_trans hlt hj), List.getD_eq_getElem _ _ hj]
    exact List.pairwise_iff_get.mp h ⟨i, lt_trans hlt hj⟩ ⟨j, hj⟩ hlt
  · exact le_rfl

/-- An in-range `getD` is a member. -/
theorem getD_mem_of_lt (l : List ℚ) (i : ℕ) (h : i < l.length) : l.getD i 0 ∈ l := by
  rw [List.getD_eq_getElem _ _ h]
  exact List.getElem_mem h

/-- On an already-sorted input the argsort permutation is the identity. -/
theorem argsortQ_sorted_eq_range (ps : List ℚ) (h : ps.Sorted (· ≤ ·)) :
    argsortQ ps = List.range ps.length := by
  unfold argsortQ
  apply List.Sorted.insertionSort_eq
  refine (List.pairwise_lt_range _).imp_of_mem ?_
  intro a b _ hb hab
  exact sorted_getD_mono ps h (le_of_lt hab) (List.mem_range.mp hb)

/-- `indexOf` on `range'` recovers the offset position. -/
theorem range'_indexOf : ∀ (n s j : ℕ), s ≤ j → j < s + n →
    (List.range' s n).indexOf j = j - s := by
  intro n
  induction n with
  | zero => intro s j h1 h2; omega
  | succ n ih =>
      intro s j h1 h2
      rw [List.range'_succ s n 1, List.indexOf_cons]
      by_cases hj : s = j
      · subst hj
        simp
      · rw [beq_false_of_ne hj]
        simp only [cond_false]
        rw [ih (s + 1) j (by omega) (by omega)]
        omega

/-- `indexOf` on `range` is the identity below the bound. -/
theorem range_indexOf {n j : ℕ} (h : j < n) : (List.range n).indexOf j = j := by
  rw [List.range_eq_range' n]
  simpa using range'_indexOf n 0 j (by omega) (by omega)

/-- Reading every position of a list back in order reproduces the list. -/
theorem map_getD_range (l : List ℚ) :
    (List.range l.length).map (fun i => l.getD i 0) = l := by
  apply List.ext_getElem (by simp)
  intro i h1 h2
  simp only [List.getElem_map, List.getElem_range]
  rw [List.getD_eq_getElem _ _ h2]

/-- Scattering along the identity permutation is the identity. -/
theorem scatterQ_range (adj : List ℚ) (m : ℕ) (h : adj.length = m) :
    scatterQ (List.range m) adj = adj := by
  unfold scatterQ
  subst h
  apply List.ext_getElem (by simp)
  intro i h1 h2
  simp only [List.getElem_map, List.getElem_range]
  rw [range_indexOf h2, List.getD_eq_getElem _ _ h2]

/-- Length of the forward-maximum tail pass. -/
theorem length_runningMaxAux (acc : ℚ) (l : List ℚ) :
    (runningMaxAux acc l).length = l.length := by
  induction l generalizing acc with
  | nil => rfl
  | cons x xs ih => simp [runningMaxAux, ih]

/-- Length of the forward-maximum pass. -/
theorem length_runningMax (l : List ℚ) : (runningMax l).length = l.length := by
  cases l with
  | nil => rfl
  | cons x xs => simp [runningMax, length_runningMaxAux]

/-- Everything the tail pass emits dominates its accumulator. -/
theorem runningMaxAux_le_mem (acc : ℚ) (l : List ℚ) :
    ∀ x ∈ runningMaxAux acc l, acc ≤ x := by
  induction l generalizing acc with
  | nil => simp [runningMaxAux]
  | cons x xs ih =>
      intro y hy
      rcases List.mem_cons.mp hy with rfl | hy
      · exact le_max_left _ _
      · exact le_trans (le_max_left _ _) (ih (max acc x) y hy)

/-- The tail pass emits a sorted list. -/
theorem runningMaxAux_sorted (acc : ℚ) (l : List ℚ) :
    (runningMaxAux acc l).Sorted (· ≤ ·) := by
  induction l generalizing acc with
  | nil => simp [runningMaxAux]
  | cons x xs ih =>
      rw [runningMaxAux, List.sorted_cons]
      exact ⟨fun b hb => runningMaxAux_le_mem _ _ b hb, ih (max acc x)⟩

/-- The forward monotonicity pass emits a sorted list. -/
theorem runningMax_sorted (l : List ℚ) : (runningMax l).Sorted (· ≤ ·) := by
  cases l with
  | nil => simp [runningMax]
  | cons x xs =>
      rw [runningMax, List.sorted_cons]
      exact ⟨fun b hb => runningMaxAux_le_mem _ _ b hb, runningMaxAux_sorted x xs⟩

/-- The tail pass only raises values. -/
theorem runningMaxAux_getD_ge (acc : ℚ) (l : List ℚ) :
    ∀ i < l.length, l.getD i 0 ≤ (runningMaxAux acc l).getD i 0 := by
  induction l generalizing acc with
  | nil => simp
  | cons x xs ih =>
      intro i hi
      cases i with
      | zero => simp [runningMaxAux]
      | succ i' =>
          rw [runningMaxAux]
          simp only [List.getD_cons_succ]
          exact ih (max acc x) i' (by simpa using hi)

/-- The forward pass only raises values. -/
theorem runningMax_getD_ge (l : List ℚ) :
    ∀ i < l.length, l.getD i 0 ≤ (runningMax l).getD i 0 := by
  cases l with
  | nil => simp
  | cons x xs =>
      intro i hi
      cases i with
      | zero => simp [runningMax]
      | succ i' =>
          rw [runningMax]
          simp only [List.getD_cons_succ]
          exact runningMaxAux_getD_ge x xs i' (by simpa using hi)

/-- The tail pass preserves an upper bound of 1. -/
theorem runningMaxAux_le_one (acc : ℚ) (l : List ℚ) (hacc : acc ≤ 1)
    (hl : ∀ x ∈ l, x ≤ 1) : ∀ y ∈ runningMaxAux acc l, y ≤ 1 := by
  induction l generalizing acc with
  | nil => simp [runningMaxAux]
  | cons x xs ih =>
      intro y hy
      rcases List.mem_cons.mp hy with rfl | hy
      · exact max_le hacc (hl x (by simp))
      · exact ih (max acc x) (max_le hacc (hl x (by simp)))
          (fun z hz => hl z (by simp [hz])) y hy

/-- The forward pass preserves an upper bound of 1. -/
theorem runningMax_le_one (l : List ℚ) (hl : ∀ x ∈ l, x ≤ 1) :
    ∀ y ∈ runningMax l, y ≤ 1 := by
  cases l with
  | nil => simp [runningMax]
  | cons x xs =>
      intro y hy
      rcases List.mem_cons.mp hy with rfl | hy
      · exact hl y (by simp)
      · exact runningMaxAux_le_one x xs (hl x (by simp))
          (fun z hz => hl z (by simp [hz])) y hy

/-- Length of the first Holm pass. -/
theorem length_holmRaw (m : ℕ) (l : List ℚ) : (holmRaw m l).length = l.length := by
  simp [holmRaw]

/-- The first Holm pass is capped at 1. -/
theorem holmRaw_le_one (m : ℕ) (l : List ℚ) : ∀ x ∈ holmRaw m l, x ≤ 1 := by
  intro x hx
  obtain ⟨⟨i, p⟩, -, hmk⟩ := List.mem_map.mp hx
  rw [← hmk]
  exact min_le_right _ _

/-- The first Holm pass dominates the raw p-values (for p-values in
`[0, 1]`). -/
theorem holmRaw_getD_ge (m : ℕ) (l : List ℚ) (hm : l.length ≤ m)
    (hbound : ∀ p ∈ l, 0 ≤ p ∧ p ≤ 1) :
    ∀ i < l.length, l.getD i 0 ≤ (holmRaw m l).getD i 0 := by
  intro i hi
  have hmem := getD_mem_of_lt l i hi
  have h0 := (hbound _ hmem).1
  have h1 := (hbound _ hmem).2
  have hgd : (holmRaw m l).getD i 0 = min (((m - i : ℕ) : ℚ) * l.getD i 0) 1 := by
    unfold holmRaw
    rw [List.getD_eq_getElem _ _ (by simp [hi]), List.getElem_map]
    rw [List.getElem_enum, List.getD_eq_getElem _ _ hi]
  rw [hgd]
  refine le_min ?_ h1
  apply le_mul_of_one_le_left h0
  have : 1 ≤ m - i := by omega
  exact_mod_cast this

/-- A sorted list's head bounds all its members. -/
theorem sorted_head_le (a : ℚ) (t : List ℚ) (hs : (a :: t).Sorted (· ≤ ·)) :
    ∀ y ∈ a :: t, a ≤ y := by
  intro y hy
  rcases List.mem_cons.mp hy with rfl | hy
  · exact le_rfl
  · exact (List.sorted_cons.mp hs).1 y hy

/-- Length of the backward Benjamini–Hochberg pass. -/
theorem length_bhPass (m : ℕ) (l : List (ℕ × ℚ)) : (bhPass m l).length = l.length := by
  induction l with
  | nil => rfl
  | cons a t ih => simp [bhPass, ih]

/-- The backward pass emits a sorted (non-decreasing) list. -/
theorem bhPass_sorted (m : ℕ) (l : List (ℕ × ℚ)) : (bhPass m l).Sorted (· ≤ ·) := by
  induction l with
  | nil => simp [bhPass]
  | cons a t ih =>
      obtain ⟨i, p⟩ := a
      rw [bhPass, List.sorted_cons]
      refine ⟨?_, ih⟩
      intro b hb
      cases hadj : bhPass m t with
      | nil => rw [hadj] at hb; simp at hb
      | cons r0 t' =>
          rw [hadj] at hb ih
          simp only [List.head?_cons]
          exact le_trans (min_le_right _ _) (sorted_head_le r0 t' ih b hb)

/-- The backward pass dominates the raw p-values: each adjusted value is a
minimum of terms `p_j * m / (j+1)` with `j ≥ i`, all of which dominate
`p_i` when the p-values are sorted, non-negative and the enumeration stays
below `m`. -/
theorem bhPass_getD_ge (m : ℕ) : ∀ (l : List ℚ) (s : ℕ), l.Sorted (· ≤ ·) →
    (∀ p ∈ l, 0 ≤ p) → s + l.length ≤ m →
    ∀ i < l.length, l.getD i 0 ≤ (bhPass m (List.enumFrom s l)).getD i 0 := by
  intro l
  induction l with
  | nil => simp
  | cons p rest ih =>
      intro s hsort hpos hm i hi
      have henum : List.enumFrom s (p :: rest) = (s, p) :: List.enumFrom (s + 1) rest := rfl
      rw [henum, bhPass]
      have hv : p ≤ p * (m : ℚ) / ((s : ℚ) + 1) := by
        rw [mul_div_assoc]
        apply le_mul_of_one_le_right (hpos p (by simp))
        rw [le_div_iff₀ (by positivity), one_mul]
        have hsm : s + 1 ≤ m := by
          have := hm
          simp only [List.length_cons] at this
          omega
        exact_mod_cast hsm
      cases i with
      | zero =>
          simp only [List.getD_cons_zero]
          cases hadj : bhPass m (List.enumFrom (s + 1) rest) with
          | nil => simpa using hv
          | cons r0 t' =>
              simp only [List.head?_cons]
              refine le_min hv ?_
              have hne : rest ≠ [] := by
                intro hrest
                rw [hrest] at hadj
                simp [bhPass] at hadj
              obtain ⟨q, t, rfl⟩ := List.exists_cons_of_ne_nil hne
              have hq : q ≤ (bhPass m (List.enumFrom (s + 1) (q :: t))).getD 0 0 := by
                refine ih (s + 1) (List.sorted_cons.mp hsort).2
                  (fun x hx => hpos x (by simp [hx])) ?_ 0 (by simp)
                simp only [List.length_cons] at hm ⊢
                omega
              rw [hadj] at hq
              simp only [List.getD_cons_zero] at hq
              exact le_trans ((List.sorted_cons.mp hsort).1 q (by simp)) hq
      | succ i' =>
          simp only [List.getD_cons_succ]
          refine ih (s + 1) (List.sorted_cons.mp hsort).2
            (fun x hx => hpos x (by simp [hx])) ?_ i' (by simpa using hi)
          simp only [List.length_cons] at hm ⊢
          omega

/-- On sorted input, Holm adjustment is the two forward passes over the
p-values themselves. -/
theorem p_adjust_holm_sorted (ps : List ℚ) (h : ps.Sorted (· ≤ ·)) :
    p_adjust ps .holm = runningMax (holmRaw ps.length ps) := by
  simp only [p_adjust]
  rw [argsortQ_sorted_eq_range ps h, map_getD_range ps]
  exact scatterQ_range _ _ (by rw [length_runningMax, length_holmRaw])

/-- On sorted input, Benjamini–Hochberg adjustment is the backward pass
over the enumerated p-values, capped at 1. -/
theorem p_adjust_fdr_sorted (ps : List ℚ) (h : ps.Sorted (· ≤ ·)) :
    p_adjust ps .fdr_bh = (bhPass ps.length ps.enum).map fun q => min q 1 := by
  simp only [p_adjust]
  rw [argsortQ_sorted_eq_range ps h, map_getD_range ps]
  exact scatterQ_range _ _ (by rw [List.length_map, length_bhPass, List.enum_length])

/-- **C5.** `p_adjust`: Bonferroni returns exactly
`min(raw[i] * m, 1)` at every position; the empty input returns the empty
output under every method; and for Holm and Benjamini–Hochberg on an
ascending input of p-values in `[0, 1]`, the output is monotone
non-decreasing, same-length, and pointwise between the raw p-value and 1. -/
theorem p_adjust_properties :
    (∀ (ps : List ℚ) (i : ℕ), i < ps.length →
      (p_adjust ps .bonferroni).getD i 0 = min (ps.getD i 0 * ps.length) 1) ∧
    (∀ meth : PAdjustMethod, p_adjust [] meth = []) ∧
    (∀ ps : List ℚ, ps.Sorted (· ≤ ·) → (∀ p ∈ ps, 0 ≤ p ∧ p ≤ 1) →
      ∀ meth ∈ [PAdjustMethod.holm, PAdjustMethod.fdr_bh],
        (p_adjust ps meth).Sorted (· ≤ ·) ∧
        (p_adjust ps meth).length = ps.length ∧
        ∀ i < ps.length,
          ps.getD i 0 ≤ (p_adjust ps meth).getD i 0 ∧ (p_adjust ps meth).getD i 0 ≤ 1) := by
  refine ⟨fun ps i hi => ?_, fun meth => by cases meth <;> rfl, fun ps hs hb meth hm => ?_⟩
  · simp only [p_adjust]
    exact getD_map_eq _ ps 0 0 i hi
  · have hmeth : meth = .holm ∨ meth = .fdr_bh := by simpa using hm
    rcases hmeth with rfl | rfl
    · rw [p_adjust_holm_sorted ps hs]
      refine ⟨runningMax_sorted _, by rw [length_runningMax, length_holmRaw], ?_⟩
      intro i hi
      have hi' : i < (holmRaw ps.length ps).length := by rwa [length_holmRaw]
      constructor
      · exact le_trans (holmRaw_getD_ge ps.length ps le_rfl hb i hi)
          (runningMax_getD_ge _ i hi')
      · exact runningMax_le_one (holmRaw ps.length ps) (holmRaw_le_one ps.length ps)
          ((runningMax (holmRaw ps.length ps)).getD i 0)
          (getD_mem_of_lt _ i (by rw [length_runningMax]; exact hi'))
    · rw [p_adjust_fdr_sorted ps hs]
      refine ⟨?_, by rw [List.length_map, length_bhPass, List.enum_length], ?_⟩
      · exact List.Pairwise.map _ (fun a b hab => min_le_min hab le_rfl)
          (bhPass_sorted _ _)
      · intro i hi
        have hi' : i < (bhPass ps.length ps.enum).length := by
          rw [length_bhPass, List.enum_length]; exact hi
        rw [getD_map_eq _ _ 0 0 i hi']
        constructor
        · refine le_min ?_ (hb _ (getD_mem_of_lt ps i hi)).2
          exact bhPass_getD_ge ps.length ps 0 hs (fun p hp => (hb p hp).1)
            (by simp) i hi
        · exact min_le_right _ _

/-- **C5 witness.** The theorem applied to the sorted input `[0, 1/2]`:
the Holm-adjusted sequence is monotone non-decreasing. -/
theorem p_adjust_properties_witness :
    (p_adjust [(0 : ℚ), 1/2] .holm).Sorted (· ≤ ·) :=
  (p_adjust_properties.2.2 [(0 : ℚ), 1/2]
    (by norm_num [List.sorted_cons])
    (by intro p hp; fin_cases hp <;> norm_num)
    .holm (by simp)).1
